import Mathlib

/-!
Verification of the Laplace-approximation core of
src/shogun/machine/gp/SingleLaplaceInferenceMethod.cpp (shogun).

Shallow embedding conventions:
* Floating-point vectors and matrices become `Fin n → ℚ` and
  `Matrix (Fin n) (Fin n) ℚ`; exact rational arithmetic stands in for
  IEEE doubles (addition/multiplication commute exactly here, so the
  various equivalent Eigen expression orders collapse to one form).
* The likelihood collaborator (CLikelihoodModel) is a record of its
  log-probability and derivative callbacks, plus the Students-t marker
  and degrees-of-freedom value used by the Newton regularization.
* `std::sqrt` / `std::log` (applied coefficientwise by Eigen) are abstract
  parameters `sqrtQ log : ℚ → ℚ`; theorems state whatever pointwise facts
  about them they need.
* Eigen LLT matrixU (the upper Cholesky factor) is an abstract parameter
  `cholU`; LLT.solve / FullPivLU.inverse / FullPivLU.determinant are exact
  over ℚ, so they are modelled by `matInv` (inverse via adjugate) and
  `Matrix.det`.
* The GPL Brent routine `local_min` is modelled from the spec: a bounded
  1-D minimizer returning the winning abscissa; here an abstract function
  `brentX` from the line objective to the chosen step, after which the
  PsiLine side effects are replayed at that step (spec section 4.1 item 7).
* `exp(2 * m_log_scale)` appears in the source only as a single scalar
  multiplier on the kernel matrix; it is modelled as the scalar `scale2`.
-/

set_option maxRecDepth 10000

namespace SingleLaplace

abbrev Vec (n : ℕ) := Fin n → ℚ

abbrev Mat (n : ℕ) := Matrix (Fin n) (Fin n) ℚ

/-- External likelihood collaborator (interface of spec section 6).
`logp f`, `dlp f`, `d2lp f`, `d3lp f` model
`get_log_probability_f(lab, f)` and
`get_log_probability_derivative_f(lab, f, 1|2|3)` with the labels baked in.
`isStudentsT` models `get_model_type() == LT_STUDENTST` and `df` the value
`get_degrees_freedom()` would return. -/
structure Lik (n : ℕ) where
  logp : Vec n → Vec n
  dlp : Vec n → Vec n
  d2lp : Vec n → Vec n
  d3lp : Vec n → Vec n
  isStudentsT : Bool
  df : ℚ

/-- Exact matrix inverse `det⁻¹ • adjugate`; over exact rational arithmetic
this is what Eigen FullPivLU inverse and the LLT/triangular solves compute
(a singular input is out of model, spec section 7). -/
def matInv {n : ℕ} (A : Mat n) : Mat n := A.det⁻¹ • A.adjugate

/-- Eigen dot product. -/
def dotQ {n : ℕ} (a b : Vec n) : ℚ := ∑ i, a i * b i

/-- `SGVector::sum`. -/
def sumQ {n : ℕ} (a : Vec n) : ℚ := ∑ i, a i

/-- The function-value recomputation `f = K * alpha * exp(log_scale*2) + m`
shared by PsiLine (line 49), update_init (line 482), update_alpha (line 554)
and get_psi_wrt_alpha / get_gradient_wrt_alpha (lines 794, 820). -/
def fOf {n : ℕ} (K : Mat n) (scale2 : ℚ) (meanf alpha : Vec n) : Vec n :=
  fun i => scale2 * K.mulVec alpha i + meanf i

/-- The objective `psi = alpha . (f - m) / 2 - sum(logp(f))`
(lines 57-59, 485-486, 797-799). -/
def psiOf {n : ℕ} (lik : Lik n) (meanf alpha f : Vec n) : ℚ :=
  dotQ alpha (fun i => f i - meanf i) / 2 - sumQ (lik.logp f)

/-- The mode state mutated by the Newton loop and by PsiLine:
`m_alpha`, `m_mu` (f), `m_dlp`, `m_W`. -/
structure ModeState (n : ℕ) where
  alpha : Vec n
  mu : Vec n
  dlp : Vec n
  W : Vec n

/-- `PsiLine::operator()` (lines 42-62): writes
`alpha = start_alpha + x*dalpha`, `f = K*alpha*exp(2*log_scale) + m`,
`dlp`, `W = -d2lp`, and returns psi. -/
def psiLineEval {n : ℕ} (lik : Lik n) (K : Mat n) (scale2 : ℚ)
    (meanf startAlpha dalpha : Vec n) (x : ℚ) : ModeState n × ℚ :=
  let alpha := fun i => startAlpha i + x * dalpha i
  let f := fOf K scale2 meanf alpha
  (⟨alpha, f, lik.dlp f, fun i => -(lik.d2lp f i)⟩, psiOf lik meanf alpha f)

/-- The W regularization at the top of a Newton iteration (lines 203-220):
if `minCoeff(W) < 0` then `W += (2/df) * dlp .* dlp`, where `df` is the
Students-t degrees of freedom when the likelihood is Students-t and 1
otherwise. `minCoeff(W) < 0` is expressed as `∃ i, W i < 0`. -/
def stepW {n : ℕ} (lik : Lik n) (st : ModeState n) : Vec n :=
  if ∃ i, st.W i < 0 then
    let df := if lik.isStudentsT then lik.df else 1
    fun i => st.W i + 2 / df * (st.dlp i * st.dlp i)
  else st.W

/-- `sW = sqrt(W)` coefficientwise (line 223), applied to the possibly
regularized W. -/
def stepSW {n : ℕ} (sqrtQ : ℚ → ℚ) (lik : Lik n) (st : ModeState n) : Vec n :=
  fun i => sqrtQ (stepW lik st i)

/-- The LLT input `(sW * sWᵀ) .* (K * exp(2*log_scale)) + I`
(lines 225-230). -/
def stepB {n : ℕ} (sqrtQ : ℚ → ℚ) (lik : Lik n) (K : Mat n) (scale2 : ℚ)
    (st : ModeState n) : Mat n :=
  Matrix.of (fun i j =>
    stepSW sqrtQ lik st i * stepSW sqrtQ lik st j * (scale2 * K i j)) + 1

/-- The Newton direction (lines 232-240):
`b = W .* (f - m) + dlp`,
`dalpha = b - sW .* L.solve(sW .* (K * b * exp(2*log_scale))) - alpha`,
with the LLT solve rendered as multiplication by the exact inverse. -/
def stepDalpha {n : ℕ} (sqrtQ : ℚ → ℚ) (lik : Lik n) (K : Mat n)
    (scale2 : ℚ) (meanf : Vec n) (st : ModeState n) : Vec n :=
  let W := stepW lik st
  let sW := stepSW sqrtQ lik st
  let b := fun i => W i * (st.mu i - meanf i) + st.dlp i
  fun i => b i -
    sW i * (matInv (stepB sqrtQ lik K scale2 st)).mulVec
      (fun j => sW j * (scale2 * K.mulVec b j)) i -
    st.alpha i

/-- One body of the while loop (lines 196-262): regularize W, build the
Newton direction, let Brent pick the step `x` for the line objective, and
replay the PsiLine side effects at the winning `x` (spec section 4.1,
item 7); returns the new mode state and `Psi_New`. -/
def newtonStep {n : ℕ} (sqrtQ : ℚ → ℚ) (brentX : (ℚ → ℚ) → ℚ)
    (lik : Lik n) (K : Mat n) (scale2 : ℚ) (meanf : Vec n)
    (st : ModeState n) : ModeState n × ℚ :=
  let dalpha := stepDalpha sqrtQ lik K scale2 meanf st
  let x := brentX (fun t => (psiLineEval lik K scale2 meanf st.alpha dalpha t).2)
  psiLineEval lik K scale2 meanf st.alpha dalpha x

/-- `Psi_Old`, which starts at `CMath::INFTY` (line 169). -/
inductive PsiVal where
  | inf : PsiVal
  | val : ℚ → PsiVal
deriving DecidableEq

/-- The loop/warning condition `Psi_Old - Psi_New > m_tolerance`
(lines 195 and 265); infinity minus a finite value exceeds any tolerance. -/
def loopCondB (tol : ℚ) (po : PsiVal) (pn : ℚ) : Bool :=
  match po with
  | PsiVal.inf => true
  | PsiVal.val a => decide (tol < a - pn)

/-- The convergence condition in the claim/spec wording,
`|Psi_old - Psi_new| > tol`; along a run whose line searches never
increase Psi it coincides with the source's signed test `loopCondB`. -/
def absCondB (tol : ℚ) (po : PsiVal) (pn : ℚ) : Bool :=
  match po with
  | PsiVal.inf => true
  | PsiVal.val a => decide (tol < |a - pn|)

/-- Result of the while loop: final state, final `Psi_Old`/`Psi_New` and the
number of executed iterations. -/
structure NewtonResult (σ : Type) where
  state : σ
  psiOld : PsiVal
  psiNew : ℚ
  iters : ℕ

/-- The while loop of `CSingleLaplaceNewtonOptimizer::minimize`
(lines 193-263), fuel = `m_iter - iter`, so `iter < m_iter` is exactly
`fuel > 0`. -/
def minimizeLoop {σ : Type} (tol : ℚ) (step : σ → σ × ℚ) :
    ℕ → ℕ → σ → PsiVal → ℚ → NewtonResult σ
  | 0, iter, s, po, pn => ⟨s, po, pn, iter⟩
  | fuel + 1, iter, s, po, pn =>
    if loopCondB tol po pn then
      let p := step s
      minimizeLoop tol step fuel (iter + 1) p.1 (PsiVal.val pn) p.2
    else ⟨s, po, pn, iter⟩

/-- Loop result plus the warning flag (lines 265-268) and the returned
value (line 269). -/
structure MinimizeOutcome (σ : Type) where
  res : NewtonResult σ
  warned : Bool
  ret : ℚ

/-- `minimize` from the top of the loop on: run the loop from `iter = 0`
with `Psi_Old = INFTY`, then warn iff
`Psi_Old - Psi_New > m_tolerance && iter >= m_iter`, and return `Psi_New`. -/
def runMinimize {σ : Type} (tol : ℚ) (cap : ℕ) (step : σ → σ × ℚ)
    (s0 : σ) (p0 : ℚ) : MinimizeOutcome σ :=
  let r := minimizeLoop tol step cap 0 s0 PsiVal.inf p0
  ⟨r, loopCondB tol r.psiOld r.psiNew && decide (cap ≤ r.iters), r.psiNew⟩

/-- Default `m_iter = 20` from `CSingleLaplaceNewtonOptimizer::init`
(line 149). -/
def newtonDefaultIter : ℕ := 20

/-- Default `m_tolerance = 1e-6` from `CSingleLaplaceNewtonOptimizer::init`
(line 150), idealized to the exact rational. -/
def newtonDefaultTolerance : ℚ := 1 / 1000000

/-- `CSingleLaplaceNewtonOptimizer::minimize` (lines 166-270): seed
`Psi_New = m_Psi`, compute `W = -d2lp(mu)` and `dlp(mu)` (lines 180-191),
then run the loop with `newtonStep` as body. -/
def newtonMinimize {n : ℕ} (sqrtQ : ℚ → ℚ) (brentX : (ℚ → ℚ) → ℚ)
    (lik : Lik n) (K : Mat n) (scale2 : ℚ) (meanf alpha0 mu0 : Vec n)
    (tol : ℚ) (cap : ℕ) (p0 : ℚ) : MinimizeOutcome (ModeState n) :=
  runMinimize tol cap (newtonStep sqrtQ brentX lik K scale2 meanf)
    ⟨alpha0, mu0, lik.dlp mu0, fun i => -(lik.d2lp mu0 i)⟩ p0

/-- Loop-entry consistency of the mode state: `m_mu` is derived from the
current `m_alpha` (claim C5's invariant, established by update_init and
by every PsiLine evaluation) and the running Psi is the objective at that
state (lines 485, 498 and PsiLine line 58). The Newton loop both assumes
and preserves this. -/
def goodState {n : ℕ} (lik : Lik n) (K : Mat n) (scale2 : ℚ) (meanf : Vec n)
    (st : ModeState n) (pn : ℚ) : Prop :=
  st.mu = fOf K scale2 meanf st.alpha ∧ pn = psiOf lik meanf st.alpha st.mu

/-- The inference-object state touched by update_chol / update_deriv /
the evaluators: kernel matrix `m_ktrtr`, `exp(2*m_log_scale)`, cached mean
`m_mean_f`, `m_alpha`, `m_mu`, the likelihood derivative caches, `m_W`,
`m_sW`, `m_L`, and the gradient auxiliaries `m_Z`, `m_g`, `m_dfhat`. -/
structure InfState (n : ℕ) where
  K : Mat n
  scale2 : ℚ
  meanf : Vec n
  alpha : Vec n
  mu : Vec n
  dlp : Vec n
  d2lp : Vec n
  d3lp : Vec n
  W : Vec n
  sW : Vec n
  L : Mat n
  Z : Mat n
  g : Vec n
  dfhat : Vec n

/-- The sW computation of update_chol (lines 398-402): plain `sqrt(W)` when
`minCoeff(W) > 0`, otherwise the signed square root
`sqrt((|W|+W)/2) - sqrt((|W|-W)/2)`. `minCoeff(W) > 0` is `∀ i, 0 < W i`. -/
def cholSW {n : ℕ} (sqrtQ : ℚ → ℚ) (W : Vec n) : Vec n :=
  if ∀ i, 0 < W i then fun i => sqrtQ (W i)
  else fun i => sqrtQ ((|W i| + W i) / 2) - sqrtQ ((|W i| - W i) / 2)

/-- The L computation of update_chol (lines 411-432): on the indefinite
branch (`minCoeff(W) < 0`) a pivoted-LU inverse of
`A = I + K*exp(2*log_scale)*diag(W)` with `L = diag(W) * (-A⁻¹)`; on the
PSD branch the upper Cholesky factor of
`(sW*sWᵀ) .* (K*exp(2*log_scale)) + I`. -/
def cholL {n : ℕ} (cholU : Mat n → Mat n) (K : Mat n) (scale2 : ℚ)
    (W sW : Vec n) : Mat n :=
  if ∃ i, W i < 0 then
    Matrix.diagonal W * (-(matInv (1 + scale2 • K * Matrix.diagonal W)))
  else
    cholU (Matrix.of (fun i j => sW i * sW j * (scale2 * K i j)) + 1)

/-- `CSingleLaplaceInferenceMethod::update_chol` (lines 382-433):
refresh dlp/d2lp/d3lp at the current mode, set `W = -d2lp`, then compute
sW and L per branch. -/
def update_chol {n : ℕ} (sqrtQ : ℚ → ℚ) (cholU : Mat n → Mat n)
    (lik : Lik n) (st : InfState n) : InfState n :=
  let dlp := lik.dlp st.mu
  let d2lp := lik.d2lp st.mu
  let d3lp := lik.d3lp st.mu
  let W := fun i => -(d2lp i)
  let sW := cholSW sqrtQ W
  ⟨st.K, st.scale2, st.meanf, st.alpha, st.mu, dlp, d2lp, d3lp, W, sW,
    cholL cholU st.K st.scale2 W sW, st.Z, st.g, st.dfhat⟩

/-- `get_negative_log_marginal_likelihood` (lines 319-359):
`alpha.(mu-mean)/2 - sum(logp(mu))` plus, on the indefinite branch,
`log(det(I + K*exp(2*log_scale)*diag(sW)))/2` (note: the code builds this
determinant from `diag(sW)`, lines 345-347), or on the PSD branch
`sum(log(diag(L)))`. The mean vector it fetches from the mean collaborator
is the cached `meanf`. -/
def get_negative_log_marginal_likelihood {n : ℕ} (logQ : ℚ → ℚ)
    (lik : Lik n) (st : InfState n) : ℚ :=
  let lp := sumQ (lik.logp st.mu)
  if ∃ i, st.W i < 0 then
    dotQ st.alpha (fun i => st.mu i - st.meanf i) / 2 - lp +
      logQ (1 + st.scale2 • st.K * Matrix.diagonal st.sW).det / 2
  else
    dotQ st.alpha (fun i => st.mu i - st.meanf i) / 2 - lp +
      sumQ (fun i => logQ (st.L i i))

/-- Modelled from the spec (sections 4.3 and 4.4): the indefinite-branch
NLML with the determinant term taken from the pivoted-LU determinant of
`A = I + K*scale2*diag(W)` — i.e. built with `diag(W)`, as claim C1 and
the spec state, rather than with `diag(sW)` as the source does. -/
def nlmlSpecIndefinite {n : ℕ} (logQ : ℚ → ℚ) (lik : Lik n)
    (st : InfState n) : ℚ :=
  let lp := sumQ (lik.logp st.mu)
  dotQ st.alpha (fun i => st.mu i - st.meanf i) / 2 - lp +
    logQ (1 + st.scale2 • st.K * Matrix.diagonal st.W).det / 2

/-- `update_init` (lines 450-499). `prev = none` models
`m_alpha.vlen != m_labels->get_num_labels()` (the forced reset); otherwise
`prev = some a` is the warm-start alpha. Returns `(m_alpha, m_mu, m_Psi)`. -/
def update_init {n : ℕ} (lik : Lik n) (K : Mat n) (scale2 : ℚ)
    (meanf : Vec n) (prev : Option (Vec n)) : Vec n × Vec n × ℚ :=
  match prev with
  | none => (fun _ => 0, meanf, -(sumQ (lik.logp meanf)))
  | some a =>
    let mu := fOf K scale2 meanf a
    let psiNew := psiOf lik meanf a mu
    let psiDef := -(sumQ (lik.logp meanf))
    if psiDef < psiNew then (fun _ => 0, meanf, psiDef) else (a, mu, psiNew)

/-- The tail of `update_alpha` (lines 543-556), run after either driver:
given the alpha the minimizer left in `m_alpha`, recompute
`m_mu = K*alpha*exp(2*log_scale) + mean`. Returns `(m_alpha, m_mu)`. -/
def update_alpha {n : ℕ} (K : Mat n) (scale2 : ℚ) (meanf newAlpha : Vec n) :
    Vec n × Vec n :=
  (newAlpha, fOf K scale2 meanf newAlpha)

/-- `update_deriv` (lines 558-617): the shared gradient auxiliaries.
Indefinite branch: `Z = -L`, `g = rowSums(A⁻¹ .* (K*exp(2*log_scale)))/2`
with `A = I + K*exp(2*log_scale)*diag(W)`.
PSD branch: `Z = diag(sW) * (LᵀL)⁻¹ * diag(sW)` via the two triangular
solves, `C = L⁻ᵀ*(diag(sW)*K*exp(2*log_scale))`,
`g = (diag(K*exp(2*log_scale)) - colSums(C.*C))/2`.
In both branches `dfhat = g .* d3lp` (line 616). -/
def update_deriv {n : ℕ} (st : InfState n) : InfState n :=
  let Zg : Mat n × Vec n :=
    if ∃ i, st.W i < 0 then
      let iA := matInv (1 + st.scale2 • st.K * Matrix.diagonal st.W)
      (-st.L, fun i => (∑ j, iA i j * (st.scale2 * st.K i j)) / 2)
    else
      let Z1 := matInv st.L.transpose * Matrix.diagonal st.sW
      let Z2 := matInv st.L * Z1
      let C := matInv st.L.transpose *
        (Matrix.diagonal st.sW * (st.scale2 • st.K))
      (Matrix.diagonal st.sW * Z2,
        fun i => (st.scale2 * st.K i i - ∑ j, C j i * C j i) / 2)
  ⟨st.K, st.scale2, st.meanf, st.alpha, st.mu, st.dlp, st.d2lp, st.d3lp,
    st.W, st.sW, st.L, Zg.1, Zg.2, fun i => Zg.2 i * st.d3lp i⟩

/-- One component of `get_derivative_wrt_mean` (lines 745-762), for a mean
derivative vector `dmu`:
`-alpha.dmu - dfhat.(dmu - K*exp(2*log_scale)*(Z*dmu))`. -/
def get_derivative_wrt_mean {n : ℕ} (st : InfState n) (dmu : Vec n) : ℚ :=
  -(dotQ st.alpha dmu) -
    dotQ st.dfhat (fun i => dmu i - (st.scale2 • st.K).mulVec (st.Z.mulVec dmu) i)

/-- The one inference-method hyperparameter name the source accepts
(line 622). -/
def logScaleName : String := "log_scale"

/-- The invalid-argument condition raised by the REQUIRE on lines 622-624,
modelled as an error value. -/
def logScaleErrMsg : String :=
  "invalid argument: cannot compute derivative wrt this parameter"

/-- The log_scale derivative computed on lines 626-649:
`(sum(Z .* K)/2 - alphaᵀ*K*alpha/2 - dfhat.(b - K*exp(2*log_scale)*(Z*b)))
 * exp(2*log_scale) * 2` with `b = K*dlp`. -/
def logScaleDeriv {n : ℕ} (st : InfState n) : ℚ :=
  let r0 := (∑ i, ∑ j, st.Z i j * st.K i j) / 2 -
    dotQ (fun j => ∑ i, st.alpha i * st.K i j) st.alpha / 2
  let b := st.K.mulVec st.dlp
  let r1 := r0 -
    dotQ st.dfhat (fun i => b i - (st.scale2 • st.K).mulVec (st.Z.mulVec b) i)
  r1 * (st.scale2 * 2)

/-- `get_derivative_wrt_inference_method` (lines 619-650): any parameter
name other than log_scale fails the REQUIRE on lines 622-624 before any
computation; for log_scale the derivative is computed and returned. -/
def get_derivative_wrt_inference_method {n : ℕ} (st : InfState n)
    (paramName : String) : Except String ℚ :=
  if paramName = logScaleName then Except.ok (logScaleDeriv st)
  else Except.error logScaleErrMsg

/-- `get_psi_wrt_alpha` (lines 783-801): recompute
`f = K*(alpha*exp(2*log_scale)) + mean_f`, return
`alpha.(f-m)*0.5 - sum(logp(f))`. -/
def get_psi_wrt_alpha {n : ℕ} (lik : Lik n) (st : InfState n) : ℚ :=
  psiOf lik st.meanf st.alpha (fOf st.K st.scale2 st.meanf st.alpha)

/-- `get_gradient_wrt_alpha` (lines 803-831): recompute f the same way and
return `K*((alpha - dlp(f))*exp(2*log_scale))`. -/
def get_gradient_wrt_alpha {n : ℕ} (lik : Lik n) (st : InfState n) : Vec n :=
  let f := fOf st.K st.scale2 st.meanf st.alpha
  fun i => st.K.mulVec (fun j => (st.alpha j - lik.dlp f j) * st.scale2) i

/- Concrete fixtures used by the closed counterexample / witness theorems. -/

/-- All-zero length-1 vector. -/
def zeroV1 : Vec 1 := fun _ => 0

/-- The length-1 vector with entry 2. -/
def twoV1 : Vec 1 := fun _ => 2

/-- The length-1 vector with entry 3. -/
def threeV1 : Vec 1 := fun _ => 3

/-- The 1x1 kernel matrix [[1]]. -/
def oneMat : Mat 1 := Matrix.of fun _ _ => 1

/-- A parameter name other than log_scale, for exercising the
invalid-argument guard. -/
def otherParamName : String := "kernel_width"

/-- A degenerate concrete stand-in for std::sqrt (only ever applied where
its value is irrelevant or where the theorem hypotheses pin it down). -/
def sqrtZero : ℚ → ℚ := fun _ => 0

/-- A concrete stand-in for std::sqrt correct at the two points the C1
failing input needs: sqrt(0) = 0 and sqrt(1/4) = 1/2. -/
def sqrtC1 : ℚ → ℚ := fun x => if x = 1 / 4 then 1 / 2 else 0

/-- A Brent stand-in that always returns step 0. -/
def brentZero : (ℚ → ℚ) → ℚ := fun _ => 0

/-- A concrete likelihood with logp(f) = f (so dlp = 1, d2lp = 0, W = 0). -/
def likLinear : Lik 1 :=
  ⟨fun f => f, fun _ _ => 1, fun _ _ => 0, fun _ _ => 0, false, 1⟩

/-- A concrete log-concave likelihood with logp(f) = -f², dlp = -2f,
d2lp = -2 (so W = 2). -/
def likQuad : Lik 1 :=
  ⟨fun f i => -(f i * f i), fun f i => -(2 * f i), fun _ _ => -2,
    fun _ _ => 0, false, 1⟩

/-- A concrete likelihood sitting exactly on the branch boundary:
d2lp = 0, so W = 0 and minCoeff(W) = 0. -/
def likBoundary : Lik 1 :=
  ⟨fun _ _ => 0, fun _ _ => 0, fun _ _ => 0, fun _ _ => 0, false, 1⟩

/-- A concrete Students-t likelihood marker with 3 degrees of freedom. -/
def likStudent : Lik 1 :=
  ⟨fun _ _ => 0, fun _ _ => 0, fun _ _ => 0, fun _ _ => 0, true, 3⟩

/-- A concrete likelihood whose second derivative is the constant 1/4, so
update_chol computes W = -1/4 < 0 (the indefinite branch). -/
def likC1 : Lik 1 :=
  ⟨fun _ _ => 0, fun _ _ => 0, fun _ _ => 1 / 4, fun _ _ => 0, false, 1⟩

/-- A concrete mode state with a negative W entry and dlp = 2. -/
def stNeg : ModeState 1 := ⟨fun _ => 0, fun _ => 0, fun _ => 2, fun _ => -1⟩

/-- A concrete inference state: K = [[1]], scale2 = 1, everything else 0. -/
def stOne : InfState 1 :=
  ⟨oneMat, 1, zeroV1, zeroV1, zeroV1, zeroV1, zeroV1, zeroV1, zeroV1,
    zeroV1, 0, 0, zeroV1, zeroV1⟩


/-! ## Helper lemmas -/

/-- On all-nonnegative W the signed square root collapses to the plain
coefficientwise square root (using only that sqrt(0) = 0). -/
theorem cholSW_of_nonneg {n : ℕ} (sqrtQ : ℚ → ℚ) (W : Vec n) (h0 : sqrtQ 0 = 0)
    (hW : ∀ i, 0 ≤ W i) : cholSW sqrtQ W = fun i => sqrtQ (W i) := by
  unfold cholSW
  split
  · rfl
  · funext i
    have habs : |W i| = W i := abs_of_nonneg (hW i)
    have h1 : (|W i| + W i) / 2 = W i := by rw [habs]; ring
    have h2 : (|W i| - W i) / 2 = 0 := by rw [habs]; ring
    rw [h1, h2, h0, sub_zero]

/-- On all-nonnegative W the L branch selection takes the Cholesky path. -/
theorem cholL_of_nonneg {n : ℕ} (cholU : Mat n → Mat n) (K : Mat n) (scale2 : ℚ)
    (W sW : Vec n) (hW : ∀ i, 0 ≤ W i) :
    cholL cholU K scale2 W sW =
      cholU (Matrix.of (fun i j => sW i * sW j * (scale2 * K i j)) + 1) := by
  unfold cholL
  rw [if_neg]
  push_neg
  exact hW

/-- Unrolling the while loop once when the condition holds. -/
theorem minimizeLoop_succ_of_cond {σ : Type} (tol : ℚ) (step : σ → σ × ℚ)
    (fuel iter : ℕ) (s : σ) (po : PsiVal) (pn : ℚ)
    (h : loopCondB tol po pn = true) :
    minimizeLoop tol step (fuel + 1) iter s po pn =
      minimizeLoop tol step fuel (iter + 1) (step s).1 (PsiVal.val pn) (step s).2 := by
  simp [minimizeLoop, h]

/-- Exiting the while loop when the condition fails. -/
theorem minimizeLoop_succ_of_not_cond {σ : Type} (tol : ℚ) (step : σ → σ × ℚ)
    (fuel iter : ℕ) (s : σ) (po : PsiVal) (pn : ℚ)
    (h : loopCondB tol po pn = false) :
    minimizeLoop tol step (fuel + 1) iter s po pn = ⟨s, po, pn, iter⟩ := by
  simp [minimizeLoop, h]

/-- The while loop executes at most `fuel` more iterations, and if it stops
before exhausting the cap then the signed-decrease condition has failed. -/
theorem minimizeLoop_exit {σ : Type} (tol : ℚ) (step : σ → σ × ℚ) :
    ∀ (fuel iter : ℕ) (s : σ) (po : PsiVal) (pn : ℚ),
      (minimizeLoop tol step fuel iter s po pn).iters ≤ iter + fuel ∧
      ((minimizeLoop tol step fuel iter s po pn).iters < iter + fuel →
        loopCondB tol (minimizeLoop tol step fuel iter s po pn).psiOld
          (minimizeLoop tol step fuel iter s po pn).psiNew = false) := by
  intro fuel
  induction fuel with
  | zero =>
    intro iter s po pn
    refine ⟨by simp [minimizeLoop], ?_⟩
    intro h
    simp [minimizeLoop] at h
  | succ f ih =>
    intro iter s po pn
    by_cases hc : loopCondB tol po pn = true
    · rw [minimizeLoop_succ_of_cond tol step f iter s po pn hc]
      have h1 := ih (iter + 1) (step s).1 (PsiVal.val pn) (step s).2
      exact ⟨by omega, fun h => h1.2 (by omega)⟩
    · rw [minimizeLoop_succ_of_not_cond tol step f iter s po pn
        (Bool.eq_false_iff.mpr hc)]
      exact ⟨by simp, fun _ => Bool.eq_false_iff.mpr hc⟩

/-! ## Claim theorems -/

/-- Claim C1 (code bug): at a converged indefinite mode the source builds
the NLML determinant from `I + K*scale2*diag(sW)` (with the signed square
root sW), not from `A = I + K*scale2*diag(W)` as the claim and the spec
(and the same file in update_chol and update_deriv) prescribe. Concretely,
with K = [[1]], scale2 = 1, zero mean/alpha/mode, and d2lp = 1/4 (so
W = -1/4, sW = -1/2 after update_chol), the code returns determinant term
log(1/2)/2 (value 1/4 with log modelled by id) while the claimed formula
gives log(3/4)/2 (value 3/8): the two NLML values differ. -/
theorem nlml_indefinite_uses_sW_not_W :
    (update_chol sqrtC1 id likC1 stOne).W = (fun _ => -(1 / 4 : ℚ))
    ∧ (update_chol sqrtC1 id likC1 stOne).sW = (fun _ => -(1 / 2 : ℚ))
    ∧ get_negative_log_marginal_likelihood id likC1
        (update_chol sqrtC1 id likC1 stOne) = 1 / 4
    ∧ nlmlSpecIndefinite id likC1 (update_chol sqrtC1 id likC1 stOne) = 3 / 8
    ∧ get_negative_log_marginal_likelihood id likC1
        (update_chol sqrtC1 id likC1 stOne) ≠
      nlmlSpecIndefinite id likC1 (update_chol sqrtC1 id likC1 stOne) := by
  have hW : (update_chol sqrtC1 id likC1 stOne).W = (fun _ => -(1 / 4 : ℚ)) := rfl
  have hK : (update_chol sqrtC1 id likC1 stOne).K = oneMat := rfl
  have hs2 : (update_chol sqrtC1 id likC1 stOne).scale2 = 1 := rfl
  have hcond : ¬ ∀ i : Fin 1, 0 < -(likC1.d2lp stOne.mu i) := by
    intro h
    have := h 0
    norm_num [likC1] at this
  have hsW : (update_chol sqrtC1 id likC1 stOne).sW = (fun _ => -(1 / 2 : ℚ)) := by
    show cholSW sqrtC1 (fun i => -(likC1.d2lp stOne.mu i)) = _
    unfold cholSW
    rw [if_neg hcond]
    funext i
    norm_num [likC1, sqrtC1, abs_of_nonneg]
  have hnl : get_negative_log_marginal_likelihood id likC1
      (update_chol sqrtC1 id likC1 stOne) = 1 / 4 := by
    unfold get_negative_log_marginal_likelihood
    rw [if_pos]
    · rw [hsW, hK, hs2]
      show dotQ stOne.alpha (fun i => stOne.mu i - stOne.meanf i) / 2 -
        sumQ (likC1.logp stOne.mu) + _ = _
      norm_num [dotQ, sumQ, likC1, stOne, zeroV1, oneMat, Matrix.det_fin_one,
        Matrix.add_apply, Matrix.mul_apply, Matrix.smul_apply, Matrix.one_apply,
        Matrix.diagonal_apply_eq, Fin.sum_univ_one, Matrix.of_apply]
    · exact ⟨0, by rw [hW]; norm_num⟩
  have hspec : nlmlSpecIndefinite id likC1 (update_chol sqrtC1 id likC1 stOne) =
      3 / 8 := by
    unfold nlmlSpecIndefinite
    rw [hW, hK, hs2]
    show dotQ stOne.alpha (fun i => stOne.mu i - stOne.meanf i) / 2 -
      sumQ (likC1.logp stOne.mu) + _ = _
    norm_num [dotQ, sumQ, likC1, stOne, zeroV1, oneMat, Matrix.det_fin_one,
      Matrix.add_apply, Matrix.mul_apply, Matrix.smul_apply, Matrix.one_apply,
      Matrix.diagonal_apply_eq, Fin.sum_univ_one, Matrix.of_apply]
  refine ⟨hW, hsW, hnl, hspec, ?_⟩
  rw [hnl, hspec]
  norm_num

/-- Every PsiLine evaluation leaves a consistent mode state: the new mu is
derived from the new alpha and the returned psi is the objective there. -/
theorem psiLineEval_good {n : ℕ} (lik : Lik n) (K : Mat n) (scale2 : ℚ)
    (meanf startAlpha dalpha : Vec n) (x : ℚ) :
    goodState lik K scale2 meanf
      (psiLineEval lik K scale2 meanf startAlpha dalpha x).1
      (psiLineEval lik K scale2 meanf startAlpha dalpha x).2 :=
  ⟨rfl, rfl⟩

/-- The line objective at x = 0 is exactly the incoming Psi: PsiLine at 0
reproduces the current alpha, f and psi. -/
theorem psiLineEval_at_zero {n : ℕ} (lik : Lik n) (K : Mat n) (scale2 : ℚ)
    (meanf : Vec n) (st : ModeState n) (pn : ℚ) (dalpha : Vec n)
    (h : goodState lik K scale2 meanf st pn) :
    (psiLineEval lik K scale2 meanf st.alpha dalpha 0).2 = pn := by
  obtain ⟨hmu, hpsi⟩ := h
  show psiOf lik meanf
    (fun i => st.alpha i + 0 * dalpha i)
    (fOf K scale2 meanf (fun i => st.alpha i + 0 * dalpha i)) = pn
  have ha : (fun i => st.alpha i + 0 * dalpha i) = st.alpha := by
    funext i
    ring
  rw [ha, ← hmu, hpsi]

/-- Any step whose Brent call is at least as good as staying at x = 0
keeps the mode-state consistency of `goodState` and never increases Psi. -/
theorem newtonStep_decreases {n : ℕ} (sqrtQ : ℚ → ℚ) (brentX : (ℚ → ℚ) → ℚ)
    (lik : Lik n) (K : Mat n) (scale2 : ℚ) (meanf : Vec n)
    (hbrent : ∀ g : ℚ → ℚ, g (brentX g) ≤ g 0)
    (st : ModeState n) (pn : ℚ) (h : goodState lik K scale2 meanf st pn) :
    goodState lik K scale2 meanf
      (newtonStep sqrtQ brentX lik K scale2 meanf st).1
      (newtonStep sqrtQ brentX lik K scale2 meanf st).2
    ∧ (newtonStep sqrtQ brentX lik K scale2 meanf st).2 ≤ pn := by
  have h0 := psiLineEval_at_zero lik K scale2 meanf st pn
    (stepDalpha sqrtQ lik K scale2 meanf st) h
  constructor
  · exact psiLineEval_good lik K scale2 meanf st.alpha
      (stepDalpha sqrtQ lik K scale2 meanf st)
      (brentX fun t => (psiLineEval lik K scale2 meanf st.alpha
        (stepDalpha sqrtQ lik K scale2 meanf st) t).2)
  · show (psiLineEval lik K scale2 meanf st.alpha
      (stepDalpha sqrtQ lik K scale2 meanf st)
      (brentX fun t => (psiLineEval lik K scale2 meanf st.alpha
        (stepDalpha sqrtQ lik K scale2 meanf st) t).2)).2 ≤ pn
    exact le_trans
      (hbrent fun t => (psiLineEval lik K scale2 meanf st.alpha
        (stepDalpha sqrtQ lik K scale2 meanf st) t).2)
      (le_of_eq h0)

/-- Along a run whose step never increases Psi, the final Psi_New is below
the incoming Psi and below the final Psi_Old, so the source's signed loop
test agrees with the absolute one everywhere on the run. -/
theorem minimizeLoop_monotone {σ : Type} (tol : ℚ) (step : σ → σ × ℚ)
    (inv : σ → ℚ → Prop)
    (hstep : ∀ s pn, inv s pn → inv (step s).1 (step s).2 ∧ (step s).2 ≤ pn) :
    ∀ (fuel iter : ℕ) (s : σ) (po : PsiVal) (pn : ℚ), inv s pn →
      (∀ a, po = PsiVal.val a → pn ≤ a) →
      (minimizeLoop tol step fuel iter s po pn).psiNew ≤ pn ∧
      (∀ a, (minimizeLoop tol step fuel iter s po pn).psiOld = PsiVal.val a →
        (minimizeLoop tol step fuel iter s po pn).psiNew ≤ a) := by
  intro fuel
  induction fuel with
  | zero =>
    intro iter s po pn hinv hpo
    exact ⟨le_refl _, hpo⟩
  | succ f ih =>
    intro iter s po pn hinv hpo
    by_cases hc : loopCondB tol po pn = true
    · rw [minimizeLoop_succ_of_cond tol step f iter s po pn hc]
      have hs := hstep s pn hinv
      have h1 := ih (iter + 1) (step s).1 (PsiVal.val pn) (step s).2 hs.1
        (by intro a ha; injection ha with ha; rw [← ha]; exact hs.2)
      exact ⟨le_trans h1.1 hs.2, h1.2⟩
    · rw [minimizeLoop_succ_of_not_cond tol step f iter s po pn
        (Bool.eq_false_iff.mpr hc)]
      exact ⟨le_refl _, hpo⟩

/-- When Psi_New is below the finite Psi_Old the signed test of line 195
and the absolute-difference test coincide. -/
theorem loopCondB_eq_absCondB (tol : ℚ) (po : PsiVal) (pn : ℚ)
    (h : ∀ a, po = PsiVal.val a → pn ≤ a) :
    loopCondB tol po pn = absCondB tol po pn := by
  cases po with
  | inf => rfl
  | val a =>
    have hle := h a rfl
    have habs : |a - pn| = a - pn := abs_of_nonneg (by linarith)
    simp only [loopCondB, absCondB]
    rw [habs]

/-- Claim C2: for every run of the Newton loop started from a consistent
state (mu and Psi derived from the current alpha, as update_init leaves
them) and driven by a line search that is at least as good as standing
still — the Brent local_min routine is absent from src/ and is modelled
from the spec: it minimizes over the closed interval, which contains
x = 0, so its value is at most the line objective at 0 — the run is
non-increasing in Psi and the source's signed loop test coincides with
the claim's `|Psi_old - Psi_new| > tolerance` everywhere on the run.
Hence: iteration continues exactly while that absolute gap exceeds the
tolerance and the count is below the cap (defaults 1e-6 and 20); the
warning fires exactly on reaching the cap while the gap still exceeds the
tolerance; and the run returns (rather than failing) the final Psi_New,
which by the per-iteration monotonicity is the best Psi reached — in
particular it is at most the starting Psi. -/
theorem newton_loop_absolute_condition {n : ℕ} (sqrtQ : ℚ → ℚ)
    (brentX : (ℚ → ℚ) → ℚ) (lik : Lik n) (K : Mat n) (scale2 : ℚ)
    (meanf alpha0 mu0 : Vec n) (p0 : ℚ)
    (hbrent : ∀ g : ℚ → ℚ, g (brentX g) ≤ g 0)
    (hmu : mu0 = fOf K scale2 meanf alpha0)
    (hp0 : p0 = psiOf lik meanf alpha0 mu0) :
    newtonDefaultTolerance = 1 / 1000000 ∧ newtonDefaultIter = 20 ∧
    (newtonMinimize sqrtQ brentX lik K scale2 meanf alpha0 mu0
        newtonDefaultTolerance newtonDefaultIter p0).res.iters ≤ newtonDefaultIter ∧
    ((newtonMinimize sqrtQ brentX lik K scale2 meanf alpha0 mu0
        newtonDefaultTolerance newtonDefaultIter p0).res.iters < newtonDefaultIter →
      absCondB newtonDefaultTolerance
        (newtonMinimize sqrtQ brentX lik K scale2 meanf alpha0 mu0
          newtonDefaultTolerance newtonDefaultIter p0).res.psiOld
        (newtonMinimize sqrtQ brentX lik K scale2 meanf alpha0 mu0
          newtonDefaultTolerance newtonDefaultIter p0).res.psiNew = false) ∧
    (newtonMinimize sqrtQ brentX lik K scale2 meanf alpha0 mu0
        newtonDefaultTolerance newtonDefaultIter p0).warned =
      (absCondB newtonDefaultTolerance
          (newtonMinimize sqrtQ brentX lik K scale2 meanf alpha0 mu0
            newtonDefaultTolerance newtonDefaultIter p0).res.psiOld
          (newtonMinimize sqrtQ brentX lik K scale2 meanf alpha0 mu0
            newtonDefaultTolerance newtonDefaultIter p0).res.psiNew
        && decide (newtonDefaultIter ≤
            (newtonMinimize sqrtQ brentX lik K scale2 meanf alpha0 mu0
              newtonDefaultTolerance newtonDefaultIter p0).res.iters)) ∧
    (newtonMinimize sqrtQ brentX lik K scale2 meanf alpha0 mu0
        newtonDefaultTolerance newtonDefaultIter p0).ret =
      (newtonMinimize sqrtQ brentX lik K scale2 meanf alpha0 mu0
        newtonDefaultTolerance newtonDefaultIter p0).res.psiNew ∧
    (newtonMinimize sqrtQ brentX lik K scale2 meanf alpha0 mu0
        newtonDefaultTolerance newtonDefaultIter p0).res.psiNew ≤ p0 := by
  have hinv0 : goodState lik K scale2 meanf
      ⟨alpha0, mu0, lik.dlp mu0, fun i => -(lik.d2lp mu0 i)⟩ p0 := ⟨hmu, hp0⟩
  have hstep := fun s pn h =>
    newtonStep_decreases sqrtQ brentX lik K scale2 meanf hbrent s pn h
  have hmono := minimizeLoop_monotone newtonDefaultTolerance
    (newtonStep sqrtQ brentX lik K scale2 meanf) (goodState lik K scale2 meanf)
    hstep newtonDefaultIter 0
    ⟨alpha0, mu0, lik.dlp mu0, fun i => -(lik.d2lp mu0 i)⟩ PsiVal.inf p0 hinv0
    (by intro a ha; simp at ha)
  have hexit := minimizeLoop_exit newtonDefaultTolerance
    (newtonStep sqrtQ brentX lik K scale2 meanf) newtonDefaultIter 0
    ⟨alpha0, mu0, lik.dlp mu0, fun i => -(lik.d2lp mu0 i)⟩ PsiVal.inf p0
  have hcondeq := loopCondB_eq_absCondB newtonDefaultTolerance
    (minimizeLoop newtonDefaultTolerance
      (newtonStep sqrtQ brentX lik K scale2 meanf) newtonDefaultIter 0
      ⟨alpha0, mu0, lik.dlp mu0, fun i => -(lik.d2lp mu0 i)⟩ PsiVal.inf p0).psiOld
    (minimizeLoop newtonDefaultTolerance
      (newtonStep sqrtQ brentX lik K scale2 meanf) newtonDefaultIter 0
      ⟨alpha0, mu0, lik.dlp mu0, fun i => -(lik.d2lp mu0 i)⟩ PsiVal.inf p0).psiNew
    hmono.2
  have hres : (newtonMinimize sqrtQ brentX lik K scale2 meanf alpha0 mu0
      newtonDefaultTolerance newtonDefaultIter p0).res =
      minimizeLoop newtonDefaultTolerance
        (newtonStep sqrtQ brentX lik K scale2 meanf) newtonDefaultIter 0
        ⟨alpha0, mu0, lik.dlp mu0, fun i => -(lik.d2lp mu0 i)⟩ PsiVal.inf p0 := rfl
  refine ⟨rfl, rfl, ?_, ?_, ?_, rfl, ?_⟩
  · simpa using hexit.1
  · intro hlt
    rw [hres] at hlt ⊢
    rw [← hcondeq]
    exact hexit.2 (by simpa using hlt)
  · rw [hres, ← hcondeq]
    rfl
  · rw [hres]
    exact hmono.1

/-- Witness for claim C2 at a concrete consistent run: the degenerate
line search that always stays at x = 0 trivially satisfies the
minimality hypothesis. -/
theorem newton_loop_absolute_condition_witness :
    (newtonMinimize sqrtZero brentZero likLinear oneMat 1 zeroV1 zeroV1 zeroV1
        newtonDefaultTolerance newtonDefaultIter 0).res.iters ≤ newtonDefaultIter
    ∧ (newtonMinimize sqrtZero brentZero likLinear oneMat 1 zeroV1 zeroV1 zeroV1
        newtonDefaultTolerance newtonDefaultIter 0).res.psiNew ≤ 0 := by
  have hbrent : ∀ g : ℚ → ℚ, g (brentZero g) ≤ g 0 := fun g => le_refl (g 0)
  have hmu : zeroV1 = fOf oneMat 1 zeroV1 zeroV1 := by
    funext i
    simp [fOf, zeroV1, oneMat, Matrix.mulVec, Matrix.dotProduct]
  have hp0 : (0:ℚ) = psiOf likLinear zeroV1 zeroV1 zeroV1 := by
    norm_num [psiOf, dotQ, sumQ, likLinear, zeroV1]
  have h := newton_loop_absolute_condition sqrtZero brentZero likLinear oneMat 1
    zeroV1 zeroV1 zeroV1 0 hbrent hmu hp0
  exact ⟨h.2.2.1, h.2.2.2.2.2.2⟩
/-- Claim C3: whenever the computed W = -d2lp is coefficientwise
nonnegative (including the boundary case min(W) = 0, where the source
takes the signed-square-root formula, which then coincides with the plain
square root), update_chol sets sW to the coefficientwise square root of W
and sets L to the upper Cholesky factor of
`I + (sW*sWᵀ) .* (K*scale2)`; the branch depends only on the sign of
min(W). -/
theorem update_chol_psd_branch {n : ℕ} (sqrtQ : ℚ → ℚ) (cholU : Mat n → Mat n)
    (lik : Lik n) (st : InfState n) (h0 : sqrtQ 0 = 0)
    (hW : ∀ i, 0 ≤ -(lik.d2lp st.mu i)) :
    (update_chol sqrtQ cholU lik st).sW = (fun i => sqrtQ (-(lik.d2lp st.mu i)))
    ∧ (update_chol sqrtQ cholU lik st).L =
        cholU (Matrix.of (fun i j =>
          sqrtQ (-(lik.d2lp st.mu i)) * sqrtQ (-(lik.d2lp st.mu j)) *
            (st.scale2 * st.K i j)) + 1) := by
  have hs := cholSW_of_nonneg sqrtQ (fun i => -(lik.d2lp st.mu i)) h0 hW
  constructor
  · exact hs
  · show cholL cholU st.K st.scale2 (fun i => -(lik.d2lp st.mu i))
      (cholSW sqrtQ (fun i => -(lik.d2lp st.mu i))) = _
    rw [cholL_of_nonneg cholU st.K st.scale2 _ _ hW, hs]

/-- Witness for claim C3 at the boundary case W = 0. -/
theorem update_chol_psd_branch_witness :
    (∀ i : Fin 1, (0:ℚ) ≤ -(likBoundary.d2lp stOne.mu i)) ∧
    (update_chol sqrtZero id likBoundary stOne).sW =
      (fun i => sqrtZero (-(likBoundary.d2lp stOne.mu i))) ∧
    (update_chol sqrtZero id likBoundary stOne).L =
      id (Matrix.of (fun i j =>
        sqrtZero (-(likBoundary.d2lp stOne.mu i)) *
          sqrtZero (-(likBoundary.d2lp stOne.mu j)) *
          (stOne.scale2 * stOne.K i j)) + 1) := by
  have hW : ∀ i : Fin 1, (0:ℚ) ≤ -(likBoundary.d2lp stOne.mu i) := by
    intro i
    norm_num [likBoundary]
  have h := update_chol_psd_branch sqrtZero id likBoundary stOne rfl hW
  exact ⟨hW, h.1, h.2⟩

/-- Claim C4: in a Newton iteration whose W has a negative entry, W is
replaced by `W + (2/df) * dlp.^2` with df the Students-t degrees of
freedom when the likelihood is Students-t and df = 1 otherwise, and the sW
used by the iteration is the coefficientwise square root of that
regularized W. -/
theorem newton_regularize_indefinite_W {n : ℕ} (sqrtQ : ℚ → ℚ) (lik : Lik n)
    (st : ModeState n) (h : ∃ i, st.W i < 0) :
    stepW lik st = (fun i => st.W i +
        2 / (if lik.isStudentsT then lik.df else 1) * (st.dlp i * st.dlp i))
    ∧ (lik.isStudentsT = false →
        stepW lik st = fun i => st.W i + 2 * (st.dlp i * st.dlp i))
    ∧ stepSW sqrtQ lik st = fun i => sqrtQ (stepW lik st i) := by
  have h1 : stepW lik st = (fun i => st.W i +
      2 / (if lik.isStudentsT then lik.df else 1) * (st.dlp i * st.dlp i)) := by
    unfold stepW
    rw [if_pos h]
  refine ⟨h1, ?_, rfl⟩
  intro hf
  rw [h1]
  simp [hf]

/-- Witness for claim C4: a Students-t likelihood with df = 3 and a
negative W entry. -/
theorem newton_regularize_indefinite_W_witness :
    (∃ i : Fin 1, stNeg.W i < 0) ∧
    stepW likStudent stNeg = (fun i => stNeg.W i +
      2 / (if likStudent.isStudentsT then likStudent.df else 1) *
        (stNeg.dlp i * stNeg.dlp i)) := by
  have h : ∃ i : Fin 1, stNeg.W i < 0 := ⟨0, by norm_num [stNeg]⟩
  exact ⟨h, (newton_regularize_indefinite_W sqrtZero likStudent stNeg h).1⟩

/-- Claim C5: the invariant `f = K*scale2*alpha + mean` holds after every
alpha update: the PsiLine line-search evaluation, update_init (all
branches, including the zero resets), and the post-minimization recompute
of update_alpha all leave mu equal to `fOf` of the current alpha. -/
theorem f_invariant_after_alpha_updates {n : ℕ} (lik : Lik n) (K : Mat n)
    (scale2 : ℚ) (meanf startAlpha dalpha : Vec n) (x : ℚ)
    (prev : Option (Vec n)) (newAlpha : Vec n) :
    ((psiLineEval lik K scale2 meanf startAlpha dalpha x).1.mu =
      fOf K scale2 meanf (psiLineEval lik K scale2 meanf startAlpha dalpha x).1.alpha)
    ∧ ((update_init lik K scale2 meanf prev).2.1 =
      fOf K scale2 meanf (update_init lik K scale2 meanf prev).1)
    ∧ ((update_alpha K scale2 meanf newAlpha).2 =
      fOf K scale2 meanf (update_alpha K scale2 meanf newAlpha).1) := by
  have hzero : meanf = fOf K scale2 meanf (fun _ => 0) := by
    funext i
    simp [fOf, Matrix.mulVec, Matrix.dotProduct]
  refine ⟨rfl, ?_, rfl⟩
  cases prev with
  | none => exact hzero
  | some a =>
    simp only [update_init]
    by_cases h : -(sumQ (lik.logp meanf)) < psiOf lik meanf a (fOf K scale2 meanf a)
    · rw [if_pos h]
      exact hzero
    · rw [if_neg h]

/-- Claim C6: get_derivative_wrt_mean returns
`-alpha.dmean - dfhat.(dmean - K*scale2*(Z*dmean))`, and update_deriv
caches `dfhat = g .* d3lp` (in both branches). -/
theorem deriv_wrt_mean_formula {n : ℕ} (st : InfState n) (dmu : Vec n) :
    get_derivative_wrt_mean st dmu =
      -(dotQ st.alpha dmu) -
        dotQ st.dfhat (fun i => dmu i - st.scale2 * st.K.mulVec (st.Z.mulVec dmu) i)
    ∧ (update_deriv st).dfhat = fun i => (update_deriv st).g i * st.d3lp i := by
  constructor
  · unfold get_derivative_wrt_mean
    simp [Matrix.smul_mulVec_assoc]
  · rfl

/-- Claim C7: whenever alpha is initialized to zero — in particular on the
length-mismatch reset (prev = none), and likewise on the warm-start reset —
update_init sets f exactly to the prior mean and Psi exactly to
`-sum(logp(mean))`. -/
theorem update_init_zero_alpha {n : ℕ} (lik : Lik n) (K : Mat n) (scale2 : ℚ)
    (meanf : Vec n) :
    update_init lik K scale2 meanf none =
      (fun _ => 0, meanf, -(sumQ (lik.logp meanf)))
    ∧ ∀ a : Vec n,
        -(sumQ (lik.logp meanf)) < psiOf lik meanf a (fOf K scale2 meanf a) →
        update_init lik K scale2 meanf (some a) =
          (fun _ => 0, meanf, -(sumQ (lik.logp meanf))) := by
  refine ⟨rfl, ?_⟩
  intro a h
  simp only [update_init]
  rw [if_pos h]

/-- Witness for claim C7 at a concrete warm start that loses to the zero
alpha. -/
theorem update_init_zero_alpha_witness :
    (-(sumQ (likQuad.logp zeroV1)) <
      psiOf likQuad zeroV1 twoV1 (fOf oneMat 1 zeroV1 twoV1)) ∧
    update_init likQuad oneMat 1 zeroV1 (some twoV1) =
      (fun _ => 0, zeroV1, -(sumQ (likQuad.logp zeroV1))) := by
  have h : -(sumQ (likQuad.logp zeroV1)) <
      psiOf likQuad zeroV1 twoV1 (fOf oneMat 1 zeroV1 twoV1) := by
    norm_num [sumQ, psiOf, dotQ, fOf, likQuad, zeroV1, twoV1, oneMat,
      Matrix.mulVec, Matrix.dotProduct, Fin.sum_univ_one, Matrix.of_apply]
  exact ⟨h, (update_init_zero_alpha likQuad oneMat 1 zeroV1).2 twoV1 h⟩

/-- Claim C8: the cost-function adapter returns
`Psi = alpha.(f - mean)/2 - sum(logp(f))` and gradient
`K*scale2*(alpha - dlp(f))`, both with `f = K*scale2*alpha + mean`
recomputed from the current alpha. -/
theorem cost_adapter_psi_gradient {n : ℕ} (lik : Lik n) (st : InfState n) :
    get_psi_wrt_alpha lik st =
      dotQ st.alpha (fun i => fOf st.K st.scale2 st.meanf st.alpha i - st.meanf i) / 2 -
        sumQ (lik.logp (fOf st.K st.scale2 st.meanf st.alpha))
    ∧ fOf st.K st.scale2 st.meanf st.alpha =
        (fun i => (st.scale2 • st.K).mulVec st.alpha i + st.meanf i)
    ∧ get_gradient_wrt_alpha lik st =
        (st.scale2 • st.K).mulVec
          (fun j => st.alpha j - lik.dlp (fOf st.K st.scale2 st.meanf st.alpha) j) := by
  refine ⟨rfl, ?_, ?_⟩
  · funext i
    simp [fOf, Matrix.smul_mulVec_assoc]
  · funext i
    simp only [get_gradient_wrt_alpha, Matrix.mulVec, Matrix.dotProduct,
      Matrix.smul_apply, smul_eq_mul]
    exact Finset.sum_congr rfl fun j hj => by ring

/-- Claim C9: requesting the NLML derivative for any inference-method
parameter name other than log_scale yields the invalid-argument error
(the REQUIRE fires before any computation; the embedding is pure, so no
state is touched and no partial result exists), while log_scale
succeeds. -/
theorem deriv_wrt_inference_method_guard {n : ℕ} (st : InfState n)
    (paramName : String) (h : paramName ≠ logScaleName) :
    get_derivative_wrt_inference_method st paramName = Except.error logScaleErrMsg
    ∧ get_derivative_wrt_inference_method st logScaleName =
        Except.ok (logScaleDeriv st) := by
  constructor
  · unfold get_derivative_wrt_inference_method
    rw [if_neg h]
  · unfold get_derivative_wrt_inference_method
    rw [if_pos rfl]

/-- Witness for claim C9 with the concrete rejected name kernel_width. -/
theorem deriv_wrt_inference_method_guard_witness :
    get_derivative_wrt_inference_method stOne otherParamName =
      Except.error logScaleErrMsg
    ∧ get_derivative_wrt_inference_method stOne logScaleName =
      Except.ok (logScaleDeriv stOne) :=
  deriv_wrt_inference_method_guard stOne otherParamName
    (by simp [otherParamName, logScaleName])

/-- Claim C10: on a warm start update_init compares the warm objective
against the zero-alpha objective `Psi_Def = -sum(logp(mean))`; whenever
`Psi_Def` is strictly smaller it resets alpha to zero and f to the mean,
and in all cases the resulting Psi is the minimum of the two objectives. -/
theorem update_init_warm_start_min {n : ℕ} (lik : Lik n) (K : Mat n)
    (scale2 : ℚ) (meanf a : Vec n) :
    (-(sumQ (lik.logp meanf)) < psiOf lik meanf a (fOf K scale2 meanf a) →
      update_init lik K scale2 meanf (some a) =
        (fun _ => 0, meanf, -(sumQ (lik.logp meanf))))
    ∧ (update_init lik K scale2 meanf (some a)).2.2 =
        min (psiOf lik meanf a (fOf K scale2 meanf a)) (-(sumQ (lik.logp meanf))) := by
  constructor
  · intro h
    simp only [update_init]
    rw [if_pos h]
  · by_cases h : -(sumQ (lik.logp meanf)) < psiOf lik meanf a (fOf K scale2 meanf a)
    · simp only [update_init]
      rw [if_pos h]
      exact (min_eq_right (le_of_lt h)).symm
    · simp only [update_init]
      rw [if_neg h]
      exact (min_eq_left (le_of_not_lt h)).symm

/-- Witness for claim C10 at a concrete warm start. -/
theorem update_init_warm_start_min_witness :
    (-(sumQ (likQuad.logp zeroV1)) <
      psiOf likQuad zeroV1 threeV1 (fOf oneMat 1 zeroV1 threeV1)) ∧
    update_init likQuad oneMat 1 zeroV1 (some threeV1) =
      (fun _ => 0, zeroV1, -(sumQ (likQuad.logp zeroV1))) ∧
    (update_init likQuad oneMat 1 zeroV1 (some threeV1)).2.2 =
      min (psiOf likQuad zeroV1 threeV1 (fOf oneMat 1 zeroV1 threeV1))
        (-(sumQ (likQuad.logp zeroV1))) := by
  have h : -(sumQ (likQuad.logp zeroV1)) <
      psiOf likQuad zeroV1 threeV1 (fOf oneMat 1 zeroV1 threeV1) := by
    norm_num [sumQ, psiOf, dotQ, fOf, likQuad, zeroV1, threeV1, oneMat,
      Matrix.mulVec, Matrix.dotProduct, Fin.sum_univ_one, Matrix.of_apply]
  exact ⟨h, (update_init_warm_start_min likQuad oneMat 1 zeroV1 threeV1).1 h,
    (update_init_warm_start_min likQuad oneMat 1 zeroV1 threeV1).2⟩

end SingleLaplace
